import Mathlib

/-!
Verification of the InternetRobustness core: the `NetworkAttacker` of
`attacker.py` (four removal policies over a mutable working network) and the
`measure`/`simulate` loop of `simulator.py`.

Shallow embedding conventions:
* A network is a value `Network` holding the node list and the undirected
  edge list; mutation is explicit state passing.  `copy()` of the external
  graph library is required by the design to yield an independent deep copy,
  which value semantics gives for free.
* Randomness (`random.choice`) is driven by an oracle `o : Nat → Nat` and a
  draw counter `k`; draw number `k` picks index `o k % length` of the list
  chosen from, exactly one draw per `random.choice` call.
* Python exceptions (choice from an empty sequence, `max` of an empty
  sequence, removing an absent node) are `none` / error results; an error
  result still carries the network as mutated so far, since a raised
  exception leaves the attacker object with all previous removals applied.
-/

set_option linter.unusedVariables false

namespace IR

/-- Random oracle: an infinite supply of naturals driving every
`random.choice`; draw number `k` yields `o k`. -/
def Oracle : Type := Nat → Nat

/-- Undirected graph value: node identifiers plus an edge list.  This is the
network-capability interface the core consumes (enumerate nodes, enumerate
neighbors, remove a node with its incident edges, independent copy). -/
structure Network where
  nodes : List Nat
  adj : List (Nat × Nat)
deriving DecidableEq

/-- Neighbors of `v`: the present nodes joined to `v` by some edge
(an edge is undirected, so either endpoint may be `v`). -/
def Network.neighbors (G : Network) (v : Nat) : List Nat :=
  G.nodes.filter (fun u =>
    G.adj.any (fun e => decide ((e.1 = v ∧ e.2 = u) ∨ (e.1 = u ∧ e.2 = v))))

/-- `remove_node`: removes the node and all incident edges; fails (raises)
if the node is absent. -/
def Network.removeNode (G : Network) (v : Nat) : Option Network :=
  if v ∈ G.nodes then
    some ⟨G.nodes.erase v,
          G.adj.filter (fun e => decide (e.1 ≠ v ∧ e.2 ≠ v))⟩
  else none

/-- `copy()`: the design requires an independent deep copy; with value
semantics the copy is the same value and independence is automatic. -/
def Network.copy (G : Network) : Network := G

/-- Degree of a node: the number of its neighbors. -/
def Network.degree (G : Network) (v : Nat) : Nat := (G.neighbors v).length

/-- A metric ranks a node subset (or, given `none`, the whole network):
it returns `(node, score)` pairs. -/
abbrev Metric := Network → Option (List Nat) → List (Nat × Int)

/-- Modelled from the spec: the default metric (the graph library's degree
view, external to the repository) maps each node of the requested subset
that is present in the network — or every node when no subset is given —
to its degree. -/
def defaultMetric : Metric := fun G sub =>
  match sub with
  | none => G.nodes.map (fun v => (v, (G.degree v : Int)))
  | some s =>
      (s.filter (fun v => decide (v ∈ G.nodes))).map
        (fun v => (v, (G.degree v : Int)))

/-- One step of Python `max(_, key=snd)`: replace the accumulator only on a
strictly greater key, so the first maximum encountered wins ties. -/
def pickMax (acc q : Nat × Int) : Nat × Int :=
  if acc.2 < q.2 then q else acc

/-- Python `max(ranks, key=lambda item: item[1])`: `none` on an empty list
(a `ValueError` in Python), otherwise the first pair of maximal score. -/
def maxBySnd : List (Nat × Int) → Option (Nat × Int)
  | [] => none
  | p :: ps => some (ps.foldl pickMax p)

/-- `random.choice`: pick the element at index `o k % length`, consuming one
oracle draw; choosing from an empty sequence fails (an `IndexError`). -/
def randomChoice (o : Oracle) (k : Nat) (l : List Nat) : Option (Nat × Nat) :=
  if l = [] then none else some (l.getD (o k % l.length) 0, k + 1)

/-- `_best_node`: the node of maximal metric score over `sub` (or over the
whole network when `sub = none`); fails when the ranking is empty. -/
def bestNode (metric : Metric) (G : Network) (sub : Option (List Nat)) :
    Option Nat :=
  (maxBySnd (metric G sub)).map Prod.fst

/-- The attacker: an exclusive working network, the per-step removal count
`n`, and the metric. -/
structure NetworkAttacker where
  network : Network
  n : Nat
  metric : Metric

/-- `NetworkAttacker.__init__`: copy the supplied network; default the
metric to the degree metric when none is given. -/
def mkAttacker (G : Network) (n : Nat) (metric : Option Metric) :
    NetworkAttacker :=
  ⟨G.copy, n, metric.getD defaultMetric⟩

/-- Result of `_attack`'s removal loop: the network and draw counter after
the call, the chooser state, and the removed nodes in order.  `err` is a
raised exception; it still carries the state as mutated so far. -/
inductive AttackResult (σ : Type) where
  | ok (G : Network) (k : Nat) (s : σ) (removed : List Nat)
  | err (G : Network) (k : Nat) (removed : List Nat)

def AttackResult.net {σ : Type} : AttackResult σ → Network
  | .ok G _ _ _ => G
  | .err G _ _ => G

def AttackResult.removed {σ : Type} : AttackResult σ → List Nat
  | .ok _ _ _ r => r
  | .err _ _ r => r

def AttackResult.isOk {σ : Type} : AttackResult σ → Bool
  | .ok _ _ _ _ => true
  | .err _ _ _ => false

/-- `_attack`: call the chooser, remove the chosen node, repeat `n` times.
A chooser failure or a failed removal aborts the loop. -/
def attackLoop {σ : Type} (choose : Network → Nat → σ → Option (Nat × Nat × σ)) :
    Nat → Network → Nat → σ → AttackResult σ
  | 0, G, k, s => .ok G k s []
  | n + 1, G, k, s =>
    match choose G k s with
    | none => .err G k []
    | some (v, k', s') =>
      match G.removeNode v with
      | none => .err G k' []
      | some G' =>
        match attackLoop choose n G' k' s' with
        | .ok G'' k'' s'' r => .ok G'' k'' s'' (v :: r)
        | .err G'' k'' r => .err G'' k'' (v :: r)

/-- Outcome of one public policy call: the attacker with its mutated
working network, the draw counter, and the removed nodes. -/
inductive CallResult where
  | ok (att : NetworkAttacker) (ctr : Nat) (removed : List Nat)
  | err (att : NetworkAttacker) (ctr : Nat) (removed : List Nat)

def CallResult.att : CallResult → NetworkAttacker
  | .ok a _ _ => a
  | .err a _ _ => a

def CallResult.removed : CallResult → List Nat
  | .ok _ _ r => r
  | .err _ _ r => r

def CallResult.ctr : CallResult → Nat
  | .ok _ c _ => c
  | .err _ c _ => c

def CallResult.isOk : CallResult → Bool
  | .ok _ _ _ => true
  | .err _ _ _ => false

/-- Repackage a loop result as a policy-call result on the attacker. -/
def finishCall {σ : Type} (att : NetworkAttacker) : AttackResult σ → CallResult
  | .ok G k _ r => .ok { att with network := G } k r
  | .err G k r => .err { att with network := G } k r

/-- The chooser of the `random` policy: `_random_node` on the whole current
network. -/
def randomChooser (o : Oracle) :
    Network → Nat → Unit → Option (Nat × Nat × Unit) :=
  fun G k _ => (randomChoice o k G.nodes).map (fun p => (p.1, p.2, ()))

/-- The chooser of the `targeted` policy: `_best_node` on the whole current
network. -/
def bestChooser (metric : Metric) :
    Network → Nat → Unit → Option (Nat × Nat × Unit) :=
  fun G k _ => (bestNode metric G none).map (fun v => (v, k, ()))

/-- The closure state of `_path_chooser`: the current target and the cached
neighbor list (`none` before the first removal of the call). -/
structure PathSt where
  target : Nat
  neighbors : Option (List Nat)
deriving DecidableEq

/-- The neighbor discriminator of `random_path`: a uniformly random member
of the cached list. -/
def discRandom (o : Oracle) : Network → Nat → List Nat → Option (Nat × Nat) :=
  fun _ k l => randomChoice o k l

/-- The neighbor discriminator of `targeted_path`: `_best_node` restricted
to the cached list. -/
def discBest (metric : Metric) : Network → Nat → List Nat → Option (Nat × Nat) :=
  fun G k l => (bestNode metric G (some l)).map (fun v => (v, k))

/-- `_path_chooser`'s inner `choose_target`: keep the seeded target on the
first call; afterwards re-seed randomly when the cache is empty, else
discriminate among the cached neighbors.  In every case the new cache is
the chosen target's neighbor list in the *current* (pre-removal) network. -/
def pathChoose (o : Oracle) (disc : Network → Nat → List Nat → Option (Nat × Nat)) :
    Network → Nat → PathSt → Option (Nat × Nat × PathSt) :=
  fun G k s =>
    match s.neighbors with
    | none => some (s.target, k, ⟨s.target, some (G.neighbors s.target)⟩)
    | some [] =>
      (randomChoice o k G.nodes).map
        (fun p => (p.1, p.2, ⟨p.1, some (G.neighbors p.1)⟩))
    | some (a :: l) =>
      (disc G k (a :: l)).map
        (fun p => (p.1, p.2, ⟨p.1, some (G.neighbors p.1)⟩))

/-- The `random` policy: remove `cnt` (default `n`) uniformly random nodes. -/
def NetworkAttacker.random (att : NetworkAttacker) (o : Oracle) (k : Nat)
    (cnt : Option Nat) : CallResult :=
  finishCall att (attackLoop (randomChooser o) (cnt.getD att.n) att.network k ())

/-- The `targeted` policy: remove `cnt` (default `n`) nodes of maximal
metric score, the metric re-evaluated before each removal. -/
def NetworkAttacker.targeted (att : NetworkAttacker) (o : Oracle) (k : Nat)
    (cnt : Option Nat) : CallResult :=
  finishCall att (attackLoop (bestChooser att.metric) (cnt.getD att.n) att.network k ())

/-- The `random_path` policy: `_path_chooser` seeds a fresh random target
(one draw, taken even when the loop then runs zero times), then the walk
removes `cnt` (default `n`) nodes. -/
def NetworkAttacker.random_path (att : NetworkAttacker) (o : Oracle) (k : Nat)
    (cnt : Option Nat) : CallResult :=
  match randomChoice o k att.network.nodes with
  | none => .err att k []
  | some (t, k') =>
    finishCall att
      (attackLoop (pathChoose o (discRandom o)) (cnt.getD att.n)
        att.network k' ⟨t, none⟩)

/-- The `targeted_path` policy: as `random_path`, but former neighbors are
discriminated by the metric restricted to the cached list. -/
def NetworkAttacker.targeted_path (att : NetworkAttacker) (o : Oracle) (k : Nat)
    (cnt : Option Nat) : CallResult :=
  match randomChoice o k att.network.nodes with
  | none => .err att k []
  | some (t, k') =>
    finishCall att
      (attackLoop (pathChoose o (discBest att.metric)) (cnt.getD att.n)
        att.network k' ⟨t, none⟩)

/-- The attack-type registry: the four policy names. -/
inductive Policy where
  | random
  | targeted
  | random_path
  | targeted_path
deriving DecidableEq

/-- `getattr(attacker, attack_type)(...)`: dispatch a policy by name. -/
def applyPolicy (o : Oracle) (p : Policy) (att : NetworkAttacker) (k : Nat)
    (cnt : Option Nat) : CallResult :=
  match p with
  | .random => att.random o k cnt
  | .targeted => att.targeted o k cnt
  | .random_path => att.random_path o k cnt
  | .targeted_path => att.targeted_path o k cnt

/-- `j` successive policy calls at the default count, stopping at the first
raised exception. -/
def runCalls (o : Oracle) (p : Policy) :
    Nat → NetworkAttacker → Nat → CallResult
  | 0, att, k => .ok att k []
  | j + 1, att, k =>
    match applyPolicy o p att k none with
    | .ok att' k' r =>
      match runCalls o p j att' k' with
      | .ok att'' k'' r' => .ok att'' k'' (r ++ r')
      | .err att'' k'' r' => .err att'' k'' (r ++ r')
    | .err att' k' r => .err att' k' r

/-! ### `simulator.py`: measurement and the simulation loop -/

/-- One expansion step of reachability: a set of nodes together with all
their neighbors. -/
def expandReach (G : Network) (s : List Nat) : List Nat :=
  (s ++ (s.map G.neighbors).flatten).dedup

/-- Nodes reachable from `v`: expanding `|nodes|` times saturates every
connected component. -/
def reachList (G : Network) (v : Nat) : List Nat :=
  (expandReach G)^[G.nodes.length] [v]

/-- The connected component of `v`, listed canonically in node-list order
(so two nodes of one component yield syntactically equal lists). -/
def componentOf (G : Network) (v : Nat) : List Nat :=
  G.nodes.filter (fun u => decide (u ∈ reachList G v))

/-- `nx.connected_component_subgraphs`: the distinct connected components. -/
def components (G : Network) : List (List Nat) :=
  (G.nodes.map (componentOf G)).dedup

/-- One step of Python `max(_, key=len)`: keep the first maximum on ties. -/
def pickLonger (acc d : List Nat) : List Nat :=
  if acc.length < d.length then d else acc

/-- Python `max(components, key=len)`: `none` for an empty component list
(a `ValueError`), else the first component of maximal size. -/
def maxByLen : List (List Nat) → Option (List Nat)
  | [] => none
  | c :: cs => some (cs.foldl pickLonger c)

/-- `measure`: the pair (number of connected components, size of the largest
component); fails on an empty network, where `max` raises on the empty
component list. -/
def measure (G : Network) : Option (Nat × Nat) :=
  (maxByLen (components G)).map (fun giant => ((components G).length, giant.length))

/-- The decimal digit characters used by `"{:.3f}".format`. -/
def digitChar : Nat → Char
  | 0 => '0'
  | 1 => '1'
  | 2 => '2'
  | 3 => '3'
  | 4 => '4'
  | 5 => '5'
  | 6 => '6'
  | 7 => '7'
  | 8 => '8'
  | _ => '9'

/-- The result-store key of `i` thousandths: `"{:.3f}".format(i * step)`
with `step = 0.001`.  For the indices a run produces (`i ≤ 999`) the float
product rounds to the exact decimal, so the key is `0.` followed by the
three digits of `i`. -/
def fmt (i : Nat) : String :=
  String.mk ['0', '.', digitChar (i / 100 % 10), digitChar (i / 10 % 10),
             digitChar (i % 10)]

/-- Numeric value (in thousandths) a key stands for; left inverse of `fmt`
on `i < 1000`. -/
def keyVal (s : String) : Nat :=
  match s.data with
  | [_, _, a, b, c] =>
    (a.toNat - 48) * 100 + (b.toNat - 48) * 10 + (c.toNat - 48)
  | _ => 0

/-- The loop of `simulate`: at index `i` perform one default-count policy
call, then append the measurement under key `fmt i`.  A raised exception
(policy failure or a failed measurement) ends the run with the entries
written so far; `true` marks a run that completed every step. -/
def simGo (o : Oracle) (p : Policy) :
    Nat → Nat → NetworkAttacker → Nat → List (String × Nat × Nat) →
    List (String × Nat × Nat) × Bool
  | 0, _, _, _, store => (store, true)
  | fuel + 1, idx, att, k, store =>
    match applyPolicy o p att k none with
    | .err _ _ _ => (store, false)
    | .ok att' k' _ =>
      match measure att'.network with
      | none => (store, false)
      | some m => simGo o p fuel (idx + 1) att' k' (store ++ [(fmt idx, m)])

/-- `simulate`: record the pristine measurement under key `"0.000"`, then
run `iters` attack+measure steps.  In the source `iters` is
`int((end - start) / step)` over the module constants, which evaluates to
`100`. -/
def simulate (o : Oracle) (p : Policy) (iters : Nat) (att : NetworkAttacker)
    (k : Nat) : List (String × Nat × Nat) × Bool :=
  match measure att.network with
  | none => ([], false)
  | some m0 => simGo o p iters 1 att k [(fmt 0, m0)]

/-- `int((end - start) / step)` for the module constants
`start = 0`, `end = 0.1`, `step = 0.001` (the float quotient evaluates to
exactly `100.0`). -/
def itersDefault : Nat := 100

/-! ### Concrete networks used to settle the measurement claims -/

/-- The empty network: no nodes, no edges. -/
def emptyNet : Network := ⟨[], []⟩

/-- `N` isolated nodes and no edges. -/
def isolatedNet (N : Nat) : Network := ⟨List.range N, []⟩

/-- The fully connected network on `N` nodes. -/
def completeNet (N : Nat) : Network :=
  ⟨List.range N,
   ((List.range N).map (fun i => (List.range i).map (fun j => (i, j)))).flatten⟩

/-- The network produced by one successful `remove_node`. -/
def eraseStep (G : Network) (v : Nat) : Network :=
  ⟨G.nodes.erase v, G.adj.filter (fun e => decide (e.1 ≠ v ∧ e.2 ≠ v))⟩

/-- Replay a list of removals on a network value: the working network as it
stood after those removals. -/
def replayNet (G : Network) (l : List Nat) : Network := l.foldl eraseStep G

/-- Oracle fixture for concrete runs: every draw picks index `0`. -/
def oW : Oracle := fun _ => 0

/-- Attacker fixture: three isolated nodes, one removal per step, default
metric. -/
def attW : NetworkAttacker := mkAttacker (isolatedNet 3) 1 none

/-- Path network fixture: 1-2-3-4-5. -/
def GW : Network := ⟨[1, 2, 3, 4, 5], [(1, 2), (2, 3), (3, 4), (4, 5)]⟩

/-! ### Facts about the maximum selections -/

theorem foldl_pickMax_mem (ps : List (Nat × Int)) (p : Nat × Int) :
    ps.foldl pickMax p ∈ p :: ps := by
  induction ps generalizing p with
  | nil => simp
  | cons q qs ih =>
    have h := ih (pickMax p q)
    rcases List.mem_cons.mp h with h1 | h1
    · rw [List.foldl_cons, h1]
      unfold pickMax
      by_cases hle : p.2 < q.2
      · simp [hle]
      · simp [hle]
    · rw [List.foldl_cons]
      have : qs.foldl pickMax (pickMax p q) ∈ qs := h1
      simp [List.mem_cons]
      right; right; exact this

theorem foldl_pickMax_le (ps : List (Nat × Int)) (p : Nat × Int) :
    ∀ q ∈ p :: ps, q.2 ≤ (ps.foldl pickMax p).2 := by
  induction ps generalizing p with
  | nil =>
    intro q hq
    rcases List.mem_cons.mp hq with rfl | h
    · exact le_refl _
    · cases h
  | cons r rs ih =>
    intro q hq
    have hp : p.2 ≤ (pickMax p r).2 := by
      unfold pickMax
      by_cases hle : p.2 < r.2
      · rw [if_pos hle]; exact le_of_lt hle
      · rw [if_neg hle]
    have hr : r.2 ≤ (pickMax p r).2 := by
      unfold pickMax
      by_cases hle : p.2 < r.2
      · rw [if_pos hle]
      · rw [if_neg hle]; exact le_of_not_lt hle
    rw [List.foldl_cons]
    rcases List.mem_cons.mp hq with rfl | hq2
    · exact le_trans hp (ih _ _ (List.mem_cons_self _ _))
    · rcases List.mem_cons.mp hq2 with rfl | hq3
      · exact le_trans hr (ih _ _ (List.mem_cons_self _ _))
      · exact ih _ q (List.mem_cons_of_mem _ hq3)

theorem maxBySnd_mem {l : List (Nat × Int)} {p : Nat × Int}
    (h : maxBySnd l = some p) : p ∈ l := by
  cases l with
  | nil => simp [maxBySnd] at h
  | cons q qs =>
    simp only [maxBySnd, Option.some.injEq] at h
    rw [← h]
    exact foldl_pickMax_mem qs q

theorem maxBySnd_le {l : List (Nat × Int)} {p : Nat × Int}
    (h : maxBySnd l = some p) : ∀ q ∈ l, q.2 ≤ p.2 := by
  cases l with
  | nil => simp [maxBySnd] at h
  | cons q qs =>
    simp only [maxBySnd, Option.some.injEq] at h
    intro x hx
    rw [← h]
    exact foldl_pickMax_le qs q x hx

theorem maxBySnd_of_ne_nil {l : List (Nat × Int)} (h : l ≠ []) :
    ∃ p, maxBySnd l = some p := by
  cases l with
  | nil => exact absurd rfl h
  | cons q qs => exact ⟨_, rfl⟩

theorem foldl_pickLonger_mem (cs : List (List Nat)) (c : List Nat) :
    cs.foldl pickLonger c ∈ c :: cs := by
  induction cs generalizing c with
  | nil => simp
  | cons d ds ih =>
    have h := ih (pickLonger c d)
    rcases List.mem_cons.mp h with h1 | h1
    · rw [List.foldl_cons, h1]
      unfold pickLonger
      by_cases hle : c.length < d.length
      · simp [hle]
      · simp [hle]
    · rw [List.foldl_cons]
      simp [List.mem_cons]
      right; right; exact h1

theorem maxByLen_mem {L : List (List Nat)} {c : List Nat}
    (h : maxByLen L = some c) : c ∈ L := by
  cases L with
  | nil => simp [maxByLen] at h
  | cons d ds =>
    simp only [maxByLen, Option.some.injEq] at h
    rw [← h]
    exact foldl_pickLonger_mem ds d

theorem maxByLen_of_ne_nil {L : List (List Nat)} (h : L ≠ []) :
    ∃ c, maxByLen L = some c := by
  cases L with
  | nil => exact absurd rfl h
  | cons d ds => exact ⟨_, rfl⟩

/-! ### Facts about node removal -/

theorem removeNode_some {G : Network} {v : Nat} {G' : Network}
    (h : G.removeNode v = some G') :
    v ∈ G.nodes ∧ G'.nodes = G.nodes.erase v := by
  unfold Network.removeNode at h
  by_cases hv : v ∈ G.nodes
  · rw [if_pos hv] at h
    refine ⟨hv, ?_⟩
    rw [← Option.some.inj h]
  · rw [if_neg hv] at h
    cases h

theorem removeNode_length {G : Network} {v : Nat} {G' : Network}
    (h : G.removeNode v = some G') :
    G'.nodes.length + 1 = G.nodes.length := by
  obtain ⟨hv, hn⟩ := removeNode_some h
  have hpos : 0 < G.nodes.length := List.length_pos.mpr (List.ne_nil_of_mem hv)
  rw [hn, List.length_erase_of_mem hv]
  omega

theorem removeNode_of_mem {G : Network} {v : Nat} (hv : v ∈ G.nodes) :
    G.removeNode v =
      some ⟨G.nodes.erase v,
            G.adj.filter (fun e => decide (e.1 ≠ v ∧ e.2 ≠ v))⟩ := by
  unfold Network.removeNode
  rw [if_pos hv]

theorem removeNode_nil {G : Network} (h : G.nodes = []) (v : Nat) :
    G.removeNode v = none := by
  unfold Network.removeNode
  rw [if_neg]
  rw [h]
  exact List.not_mem_nil v

/-! ### Invariants of the removal loop `_attack` -/

theorem attackLoop_ok {σ : Type} (ch : Network → Nat → σ → Option (Nat × Nat × σ)) :
    ∀ (n : Nat) (G : Network) (k : Nat) (s : σ) (G' : Network) (k' : Nat)
      (s' : σ) (r : List Nat),
      attackLoop ch n G k s = .ok G' k' s' r →
      r.length = n ∧ G'.nodes.length + n = G.nodes.length ∧
      G'.nodes.Sublist G.nodes ∧
      (G.nodes.Nodup → r.Nodup ∧ ∀ v ∈ r, v ∈ G.nodes) := by
  intro n
  induction n with
  | zero =>
    intro G k s G' k' s' r h
    simp only [attackLoop] at h
    cases h
    exact ⟨rfl, by omega, List.Sublist.refl _,
      fun _ => ⟨List.nodup_nil, by simp⟩⟩
  | succ m ih =>
    intro G k s G' k' s' r h
    cases hc : ch G k s with
    | none => simp only [attackLoop, hc] at h; cases h
    | some t =>
      obtain ⟨v, k2, s2⟩ := t
      cases hr : G.removeNode v with
      | none => simp only [attackLoop, hc, hr] at h; cases h
      | some G2 =>
        cases hrec : attackLoop ch m G2 k2 s2 with
        | err G3 k3 r3 => simp only [attackLoop, hc, hr, hrec] at h; cases h
        | ok G3 k3 s3 r3 =>
          simp only [attackLoop, hc, hr, hrec] at h
          cases h
          obtain ⟨hlen3, hsum3, hsub3, hnod3⟩ := ih G2 k2 s2 _ _ _ _ hrec
          obtain ⟨hv, hn2⟩ := removeNode_some hr
          have hL := removeNode_length hr
          have hsubE : G2.nodes.Sublist G.nodes := by
            rw [hn2]; exact List.erase_sublist v G.nodes
          refine ⟨by simp [hlen3], by omega, hsub3.trans hsubE, ?_⟩
          intro hnd
          have hnd2 : G2.nodes.Nodup := by
            rw [hn2]; exact hnd.erase v
          obtain ⟨hr3nd, hr3mem⟩ := hnod3 hnd2
          have hvnot : v ∉ G2.nodes := by
            rw [hn2]
            intro hmem
            exact ((List.Nodup.mem_erase_iff hnd).mp hmem).1 rfl
          constructor
          · exact List.nodup_cons.mpr
              ⟨fun hin => hvnot (hr3mem v hin), hr3nd⟩
          · intro u hu
            rcases List.mem_cons.mp hu with rfl | hu2
            · exact hv
            · exact hsubE.subset (hr3mem u hu2)

theorem attackLoop_not_ok {σ : Type}
    (ch : Network → Nat → σ → Option (Nat × Nat × σ)) :
    ∀ (n : Nat) (G : Network) (k : Nat) (s : σ),
      G.nodes.length < n → (attackLoop ch n G k s).isOk = false := by
  intro n
  induction n with
  | zero => intro G k s h; omega
  | succ m ih =>
    intro G k s h
    cases hc : ch G k s with
    | none => simp [attackLoop, hc, AttackResult.isOk]
    | some t =>
      obtain ⟨v, k2, s2⟩ := t
      cases hr : G.removeNode v with
      | none => simp [attackLoop, hc, hr, AttackResult.isOk]
      | some G2 =>
        have hL := removeNode_length hr
        have h2 : G2.nodes.length < m := by omega
        have hrec2 := ih G2 k2 s2 h2
        cases hrec : attackLoop ch m G2 k2 s2 with
        | ok G3 k3 s3 r3 =>
          rw [hrec] at hrec2
          simp [AttackResult.isOk] at hrec2
        | err G3 k3 r3 =>
          simp [attackLoop, hc, hr, hrec, AttackResult.isOk]

/-! ### Transfer lemmas from loop results to policy-call results -/

theorem finishCall_isOk {σ : Type} (att : NetworkAttacker)
    (res : AttackResult σ) :
    (finishCall att res).isOk = res.isOk := by
  cases res <;> rfl

theorem finishCall_n {σ : Type} (att : NetworkAttacker) (res : AttackResult σ) :
    ((finishCall att res).att).n = att.n := by
  cases res <;> rfl

theorem finishCall_metric {σ : Type} (att : NetworkAttacker)
    (res : AttackResult σ) :
    ((finishCall att res).att).metric = att.metric := by
  cases res <;> rfl

theorem loopCall_ok {σ : Type} {att : NetworkAttacker}
    {ch : Network → Nat → σ → Option (Nat × Nat × σ)} {c k : Nat} {s : σ}
    {res : CallResult}
    (hres : finishCall att (attackLoop ch c att.network k s) = res)
    (h : res.isOk = true) :
    res.att.network.nodes.length + c = att.network.nodes.length ∧
    res.removed.length = c ∧
    res.att.network.nodes.Sublist att.network.nodes ∧
    (att.network.nodes.Nodup → res.removed.Nodup) := by
  cases hloop : attackLoop ch c att.network k s with
  | err G2 k2 r2 =>
    rw [hloop] at hres
    rw [← hres] at h
    simp [finishCall, CallResult.isOk] at h
  | ok G2 k2 s2 r2 =>
    rw [hloop] at hres
    obtain ⟨h1, h2, h3, h4⟩ :=
      attackLoop_ok ch c att.network k s G2 k2 s2 r2 hloop
    rw [← hres]
    simp only [finishCall, CallResult.att, CallResult.removed]
    exact ⟨by omega, h1, h3, fun hnd => (h4 hnd).1⟩

theorem applyPolicy_n (o : Oracle) (p : Policy) (att : NetworkAttacker)
    (k : Nat) (cnt : Option Nat) :
    ((applyPolicy o p att k cnt).att).n = att.n := by
  cases p with
  | random => exact finishCall_n att _
  | targeted => exact finishCall_n att _
  | random_path =>
    unfold applyPolicy NetworkAttacker.random_path
    cases hrc : randomChoice o k att.network.nodes with
    | none => rfl
    | some t =>
      obtain ⟨t1, t2⟩ := t
      exact finishCall_n att _
  | targeted_path =>
    unfold applyPolicy NetworkAttacker.targeted_path
    cases hrc : randomChoice o k att.network.nodes with
    | none => rfl
    | some t =>
      obtain ⟨t1, t2⟩ := t
      exact finishCall_n att _

/-- Per-call removal accounting shared by all four policies. -/
theorem applyPolicy_ok_facts (o : Oracle) (p : Policy) (att : NetworkAttacker)
    (k : Nat) (cnt : Option Nat)
    (h : (applyPolicy o p att k cnt).isOk = true) :
    (applyPolicy o p att k cnt).att.network.nodes.length + cnt.getD att.n
        = att.network.nodes.length ∧
    (applyPolicy o p att k cnt).removed.length = cnt.getD att.n ∧
    (applyPolicy o p att k cnt).att.network.nodes.Sublist
        att.network.nodes ∧
    (att.network.nodes.Nodup → (applyPolicy o p att k cnt).removed.Nodup) := by
  cases p with
  | random => exact loopCall_ok rfl h
  | targeted => exact loopCall_ok rfl h
  | random_path =>
    cases hrc : randomChoice o k att.network.nodes with
    | none =>
      have heq : applyPolicy o .random_path att k cnt = .err att k [] := by
        unfold applyPolicy NetworkAttacker.random_path
        rw [hrc]
      rw [heq] at h
      simp [CallResult.isOk] at h
    | some t =>
      obtain ⟨t1, t2⟩ := t
      have heq : applyPolicy o .random_path att k cnt =
          finishCall att
            (attackLoop (pathChoose o (discRandom o)) (cnt.getD att.n)
              att.network t2 ⟨t1, none⟩) := by
        unfold applyPolicy NetworkAttacker.random_path
        rw [hrc]
      rw [heq] at h ⊢
      exact loopCall_ok rfl h
  | targeted_path =>
    cases hrc : randomChoice o k att.network.nodes with
    | none =>
      have heq : applyPolicy o .targeted_path att k cnt = .err att k [] := by
        unfold applyPolicy NetworkAttacker.targeted_path
        rw [hrc]
      rw [heq] at h
      simp [CallResult.isOk] at h
    | some t =>
      obtain ⟨t1, t2⟩ := t
      have heq : applyPolicy o .targeted_path att k cnt =
          finishCall att
            (attackLoop (pathChoose o (discBest att.metric)) (cnt.getD att.n)
              att.network t2 ⟨t1, none⟩) := by
        unfold applyPolicy NetworkAttacker.targeted_path
        rw [hrc]
      rw [heq] at h ⊢
      exact loopCall_ok rfl h

/-- Accounting across `j` successive default-count calls. -/
theorem runCalls_ok (o : Oracle) (p : Policy) :
    ∀ (j : Nat) (att : NetworkAttacker) (k : Nat),
      (runCalls o p j att k).isOk = true →
      (runCalls o p j att k).att.network.nodes.length + j * att.n
          = att.network.nodes.length ∧
      (runCalls o p j att k).att.n = att.n := by
  intro j
  induction j with
  | zero =>
    intro att k h
    constructor
    · simp [runCalls, CallResult.att]
    · rfl
  | succ m ih =>
    intro att k h
    have hn2 := applyPolicy_n o p att k none
    cases h1 : applyPolicy o p att k none with
    | err a2 k2 r2 =>
      rw [runCalls, h1] at h
      simp [CallResult.isOk] at h
    | ok a2 k2 r2 =>
      rw [h1] at hn2
      simp only [CallResult.att] at hn2
      have hcall := applyPolicy_ok_facts o p att k none (by rw [h1]; rfl)
      rw [h1] at hcall
      simp only [CallResult.att] at hcall
      cases h2 : runCalls o p m a2 k2 with
      | err a3 k3 r3 =>
        simp only [runCalls, h1, h2, CallResult.isOk] at h
        cases h
      | ok a3 k3 r3 =>
        have hih := ih a2 k2 (by rw [h2]; rfl)
        rw [h2] at hih
        simp only [CallResult.att] at hih
        have hgoal : runCalls o p (m + 1) att k = .ok a3 k3 (r2 ++ r3) := by
          simp only [runCalls, h1, h2]
        rw [hgoal]
        simp only [CallResult.att]
        have hd : (none : Option Nat).getD att.n = att.n := rfl
        rw [hd] at hcall
        constructor
        · rw [Nat.succ_mul]
          have e1 := hcall.1
          have e2 := hih.1
          rw [hn2] at e2
          omega
        · rw [hih.2, hn2]

/-! ### Claim theorems -/

/-- C1: for every network and every attack policy, a successful policy call
removes exactly `n` distinct nodes (or a caller-specified count overriding
`n`), and after `k` successful policy calls at the per-step count `n` the
working network contains exactly `initial_node_count - k*n` nodes. -/
theorem C1_removal_accounting :
    (∀ (o : Oracle) (p : Policy) (att : NetworkAttacker) (k : Nat)
        (cnt : Option Nat),
        (applyPolicy o p att k cnt).isOk = true →
        (applyPolicy o p att k cnt).att.network.nodes.length + cnt.getD att.n
            = att.network.nodes.length ∧
        (applyPolicy o p att k cnt).removed.length = cnt.getD att.n ∧
        (applyPolicy o p att k cnt).att.network.nodes.Sublist
            att.network.nodes ∧
        (att.network.nodes.Nodup →
          (applyPolicy o p att k cnt).removed.Nodup)) ∧
    (∀ (o : Oracle) (p : Policy) (j : Nat) (att : NetworkAttacker) (k : Nat),
        (runCalls o p j att k).isOk = true →
        (runCalls o p j att k).att.network.nodes.length + j * att.n
            = att.network.nodes.length) :=
  ⟨applyPolicy_ok_facts,
   fun o p j att k h => (runCalls_ok o p j att k h).1⟩

theorem C1_removal_accounting_witness :
    (applyPolicy oW Policy.random attW 0 (some 2)).removed.length
        = (some 2).getD attW.n ∧
    (runCalls oW Policy.random 2 attW 0).att.network.nodes.length + 2 * attW.n
        = attW.network.nodes.length := by
  constructor
  · exact (C1_removal_accounting.1 oW Policy.random attW 0 (some 2)
      (by decide)).2.1
  · exact C1_removal_accounting.2 oW Policy.random 2 attW 0 (by decide)

/-- C10: calling any of the four policies with an explicit removal count of
`0` removes no nodes and leaves the attacker's working network exactly
unchanged, for every network state (for the path policies the seeding draw
may raise on an empty network, but even then the working network is
untouched). -/
theorem C10_zero_count_identity :
    ∀ (o : Oracle) (att : NetworkAttacker) (k : Nat),
      ((att.random o k (some 0)).att.network = att.network ∧
        (att.random o k (some 0)).removed = []) ∧
      ((att.targeted o k (some 0)).att.network = att.network ∧
        (att.targeted o k (some 0)).removed = []) ∧
      ((att.random_path o k (some 0)).att.network = att.network ∧
        (att.random_path o k (some 0)).removed = []) ∧
      ((att.targeted_path o k (some 0)).att.network = att.network ∧
        (att.targeted_path o k (some 0)).removed = []) := by
  intro o att k
  have hrp : (att.random_path o k (some 0)).att.network = att.network ∧
      (att.random_path o k (some 0)).removed = [] := by
    cases hrc : randomChoice o k att.network.nodes with
    | none =>
      have heq : att.random_path o k (some 0) = .err att k [] := by
        unfold NetworkAttacker.random_path
        rw [hrc]
      rw [heq]
      exact ⟨rfl, rfl⟩
    | some t =>
      obtain ⟨t1, t2⟩ := t
      have heq : att.random_path o k (some 0) =
          finishCall att
            (.ok (σ := PathSt) att.network t2 ⟨t1, none⟩ []) := by
        unfold NetworkAttacker.random_path
        rw [hrc]
        rfl
      rw [heq]
      exact ⟨rfl, rfl⟩
  have htp : (att.targeted_path o k (some 0)).att.network = att.network ∧
      (att.targeted_path o k (some 0)).removed = [] := by
    cases hrc : randomChoice o k att.network.nodes with
    | none =>
      have heq : att.targeted_path o k (some 0) = .err att k [] := by
        unfold NetworkAttacker.targeted_path
        rw [hrc]
      rw [heq]
      exact ⟨rfl, rfl⟩
    | some t =>
      obtain ⟨t1, t2⟩ := t
      have heq : att.targeted_path o k (some 0) =
          finishCall att
            (.ok (σ := PathSt) att.network t2 ⟨t1, none⟩ []) := by
        unfold NetworkAttacker.targeted_path
        rw [hrc]
        rfl
      rw [heq]
      exact ⟨rfl, rfl⟩
  exact ⟨⟨rfl, rfl⟩, ⟨rfl, rfl⟩, hrp, htp⟩

/-- C6: two attackers constructed from the same source network own
independent working copies — a node removed through one attacker's policy
call is still present in the other attacker's working network and in the
original source network. -/
theorem C6_attacker_isolation :
    ∀ (G : Network) (n1 n2 : Nat) (m1 m2 : Option Metric) (o : Oracle)
      (p : Policy) (k : Nat) (cnt : Option Nat) (x : Nat),
      x ∈ G.nodes →
      x ∉ (applyPolicy o p (mkAttacker G n1 m1) k cnt).att.network.nodes →
      x ∈ (mkAttacker G n2 m2).network.nodes ∧ x ∈ G.nodes := by
  intro G n1 n2 m1 m2 o p k cnt x hx hnot
  exact ⟨hx, hx⟩

theorem C6_attacker_isolation_witness :
    0 ∈ (mkAttacker (isolatedNet 2) 1 none).network.nodes ∧
    0 ∈ (isolatedNet 2).nodes :=
  C6_attacker_isolation (isolatedNet 2) 1 1 none none oW Policy.random 0
    none 0 (by decide) (by decide)

/-! ### Random choice and single-step `targeted` helpers -/

theorem getD_mod_mem (l : List Nat) (m : Nat) (h : l ≠ []) :
    l.getD (m % l.length) 0 ∈ l := by
  have hpos : 0 < l.length := List.length_pos.mpr h
  have hlt : m % l.length < l.length := Nat.mod_lt _ hpos
  rw [List.getD_eq_getElem?_getD, List.getElem?_eq_getElem hlt]
  simp only [Option.getD_some]
  exact List.getElem_mem hlt

theorem randomChoice_of_ne_nil (o : Oracle) (k : Nat) {l : List Nat}
    (h : l ≠ []) :
    randomChoice o k l = some (l.getD (o k % l.length) 0, k + 1) := by
  unfold randomChoice
  rw [if_neg h]

theorem randomChoice_some {o : Oracle} {k : Nat} {l : List Nat} {v k2 : Nat}
    (h : randomChoice o k l = some (v, k2)) :
    v ∈ l ∧ l ≠ [] ∧ v = l.getD (o k % l.length) 0 ∧ k2 = k + 1 := by
  unfold randomChoice at h
  by_cases hl : l = []
  · rw [if_pos hl] at h
    cases h
  · rw [if_neg hl] at h
    have h2 := Option.some.inj h
    have hv : l.getD (o k % l.length) 0 = v := congrArg Prod.fst h2
    have hk : k + 1 = k2 := congrArg Prod.snd h2
    exact ⟨hv ▸ getD_mod_mem l (o k) hl, hl, hv.symm, hk.symm⟩

/-- When `_best_node` on the whole network picks a present node `v`, a
`targeted` call removing a single node removes exactly `[v]`. -/
theorem targeted_one_removes {metric : Metric} {G : Network} {v : Nat}
    (hbest : bestNode metric G none = some v) (hvG : v ∈ G.nodes) :
    ∀ (att : NetworkAttacker), att.network = G → att.metric = metric →
      ∀ (o : Oracle) (k : Nat), (att.targeted o k (some 1)).removed = [v] := by
  intro att hnet hmet o k
  have hstep : bestChooser metric G k () = some (v, k, ()) := by
    unfold bestChooser
    rw [hbest]
    rfl
  have hrm := removeNode_of_mem hvG
  have hloop : attackLoop (bestChooser metric) 1 G k () =
      .ok (σ := Unit)
        ⟨G.nodes.erase v,
         G.adj.filter (fun e => decide (e.1 ≠ v ∧ e.2 ≠ v))⟩ k () [v] := by
    simp only [attackLoop, hstep, hrm]
  unfold NetworkAttacker.targeted
  rw [hnet, hmet]
  show (finishCall att (attackLoop (bestChooser metric) 1 G k ())).removed = [v]
  rw [hloop]
  rfl

/-- C2: whenever the `targeted` policy chooser selects a node, that node's
metric score is greater than or equal to the score of every currently
present node (the metric listing scores for all present nodes, as the
metric contract requires, and only for present nodes); a single-removal
`targeted` call then removes exactly that node. -/
theorem removeNode_eq_eraseStep {G : Network} {v : Nat} {Gm : Network}
    (h : G.removeNode v = some Gm) : Gm = eraseStep G v := by
  unfold Network.removeNode at h
  by_cases hv : v ∈ G.nodes
  · rw [if_pos hv] at h
    exact (Option.some.inj h).symm
  · rw [if_neg hv] at h
    cases h

/-- Every removal of a `targeted` loop is a `_best_node` pick made on the
working network as it stood at that step. -/
theorem bestLoop_trace (metric : Metric) :
    ∀ (n : Nat) (G : Network) (k : Nat) (G2 : Network) (k2 : Nat) (s2 : Unit)
      (r : List Nat),
      attackLoop (bestChooser metric) n G k () = .ok G2 k2 s2 r →
      ∀ (i : Nat) (hi : i < r.length),
        bestNode metric (replayNet G (r.take i)) none
          = some (r.get ⟨i, hi⟩) := by
  intro n
  induction n with
  | zero =>
    intro G k G2 k2 s2 r h
    simp only [attackLoop] at h
    cases h
    intro i hi
    simp at hi
  | succ m ih =>
    intro G k G2 k2 s2 r h
    cases hc : bestChooser metric G k () with
    | none =>
      simp only [attackLoop, hc] at h
      cases h
    | some t =>
      obtain ⟨v, kv, sv⟩ := t
      have hbest : bestNode metric G none = some v := by
        unfold bestChooser at hc
        cases hb : bestNode metric G none with
        | none =>
          rw [hb] at hc
          cases hc
        | some w =>
          rw [hb] at hc
          simp only [Option.map_some', Option.some.injEq,
            Prod.mk.injEq] at hc
          rw [hc.1]
      cases hr : G.removeNode v with
      | none =>
        simp only [attackLoop, hc, hr] at h
        cases h
      | some Gm =>
        cases hrec : attackLoop (bestChooser metric) m Gm kv () with
        | err G3 k3 r3 =>
          simp only [attackLoop, hc, hr, hrec] at h
          cases h
        | ok G3 k3 s3 r3 =>
          simp only [attackLoop, hc, hr, hrec] at h
          cases h
          intro i hi
          cases i with
          | zero =>
            exact hbest
          | succ j =>
            have hj : j < r3.length := by
              simp only [List.length_cons] at hi
              omega
            have hstep := ih Gm kv _ _ _ _ hrec j hj
            rw [show (v :: r3).take (j + 1) = v :: r3.take j from rfl]
            rw [show replayNet G (v :: r3.take j)
              = replayNet (eraseStep G v) (r3.take j) from rfl]
            rw [← removeNode_eq_eraseStep hr]
            exact hstep

/-- C2: whenever `_best_node` (the `targeted` chooser) selects a node over
a network, that node's metric score is greater than or equal to the score
of every currently present node (under the metric contract that scores
cover the present nodes and only them), and a single-removal `targeted`
call removes exactly that node; moreover, each removal of any successful
`targeted` call is a `_best_node` pick on the working network at the moment
of that removal. -/
theorem C2_targeted_removes_max :
    (∀ (metric : Metric) (G : Network) (v : Nat),
      (∀ u ∈ G.nodes, u ∈ (metric G none).map Prod.fst) →
      (∀ p ∈ metric G none, p.1 ∈ G.nodes) →
      bestNode metric G none = some v →
      v ∈ G.nodes ∧
      (∃ sv : Int, (v, sv) ∈ metric G none ∧
        ∀ u ∈ G.nodes, ∀ t : Int, (u, t) ∈ metric G none → t ≤ sv) ∧
      (∀ (o : Oracle) (k n : Nat),
        ((mkAttacker G n (some metric)).targeted o k (some 1)).removed
            = [v])) ∧
    (∀ (o : Oracle) (k : Nat) (att : NetworkAttacker) (cnt : Option Nat),
      (att.targeted o k cnt).isOk = true →
      ∀ (i : Nat) (hi : i < (att.targeted o k cnt).removed.length),
        bestNode att.metric
          (replayNet att.network ((att.targeted o k cnt).removed.take i))
          none = some ((att.targeted o k cnt).removed.get ⟨i, hi⟩)) := by
  constructor
  · intro metric G v hcov hdom hbest
    have hbest2 := hbest
    unfold bestNode at hbest2
    cases hmax : maxBySnd (metric G none) with
    | none =>
      rw [hmax] at hbest2
      cases hbest2
    | some p =>
      rw [hmax] at hbest2
      obtain ⟨w, sv⟩ := p
      have hw : w = v := Option.some.inj hbest2
      subst hw
      have hmem := maxBySnd_mem hmax
      have hle := maxBySnd_le hmax
      have hvG : w ∈ G.nodes := hdom _ hmem
      refine ⟨hvG, ⟨sv, hmem, ?_⟩, ?_⟩
      · intro u hu t ht
        exact hle (u, t) ht
      · intro o k n
        exact targeted_one_removes hbest hvG
          (mkAttacker G n (some metric)) rfl rfl o k
  · intro o k att cnt hok
    have heq : att.targeted o k cnt =
        finishCall att (attackLoop (bestChooser att.metric) (cnt.getD att.n)
          att.network k ()) := rfl
    rw [heq] at hok ⊢
    cases hloop : attackLoop (bestChooser att.metric) (cnt.getD att.n)
        att.network k () with
    | err G2 k2 r2 =>
      rw [hloop] at hok
      simp [finishCall, CallResult.isOk] at hok
    | ok G2 k2 s2 r2 =>
      simp only [finishCall, CallResult.removed]
      intro i hi
      exact bestLoop_trace att.metric (cnt.getD att.n) att.network k
        G2 k2 s2 r2 hloop i hi

theorem C2_targeted_removes_max_witness :
    2 ∈ GW.nodes ∧
    ((mkAttacker GW 1 (some defaultMetric)).targeted oW 0 (some 1)).removed
        = [2] := by
  have h := C2_targeted_removes_max.1 defaultMetric GW 2 (by decide)
    (by decide) (by decide)
  exact ⟨h.1, h.2.2 oW 0 1⟩

/-- C8: an attacker constructed without a metric uses the degree metric:
it maps each requested node (restricted to present nodes, or every present
node when no subset is given) to its degree in the current working network,
and `targeted` with this default removes a node of maximum degree. -/
theorem C8_default_degree_metric :
    ∀ (G : Network) (n : Nat) (sub : List Nat),
      (mkAttacker G n none).metric = defaultMetric ∧
      ((defaultMetric G (some sub)).map Prod.fst
          = sub.filter (fun v => decide (v ∈ G.nodes)) ∧
        (∀ v s, (v, s) ∈ defaultMetric G (some sub) →
          s = (G.degree v : Int)) ∧
        (defaultMetric G none).map Prod.fst = G.nodes ∧
        (∀ v s, (v, s) ∈ defaultMetric G none → s = (G.degree v : Int))) ∧
      (G.nodes ≠ [] → ∃ w, bestNode defaultMetric G none = some w) ∧
      (∀ w, bestNode defaultMetric G none = some w →
        w ∈ G.nodes ∧ (∀ u ∈ G.nodes, G.degree u ≤ G.degree w) ∧
        ∀ (o : Oracle) (k : Nat),
          ((mkAttacker G n none).targeted o k (some 1)).removed = [w]) := by
  intro G n sub
  have hmapfst : ∀ l : List Nat,
      (l.map (fun v => (v, (G.degree v : Int)))).map Prod.fst = l := by
    intro l
    induction l with
    | nil => rfl
    | cons a t ih => simp [ih]
  refine ⟨rfl, ⟨?_, ?_, ?_, ?_⟩, ?_, ?_⟩
  · simp only [defaultMetric]
    exact hmapfst _
  · intro v s h
    simp only [defaultMetric, List.mem_map, List.mem_filter] at h
    obtain ⟨a, ha, heq⟩ := h
    have hav : a = v := congrArg Prod.fst heq
    have has : (G.degree a : Int) = s := congrArg Prod.snd heq
    rw [← hav, ← has]
  · simp only [defaultMetric]
    exact hmapfst _
  · intro v s h
    simp only [defaultMetric, List.mem_map] at h
    obtain ⟨a, ha, heq⟩ := h
    have hav : a = v := congrArg Prod.fst heq
    have has : (G.degree a : Int) = s := congrArg Prod.snd heq
    rw [← hav, ← has]
  · intro hne
    have hmne : defaultMetric G none ≠ [] := by
      simp [defaultMetric, List.map_eq_nil_iff, hne]
    obtain ⟨p, hp⟩ := maxBySnd_of_ne_nil hmne
    refine ⟨p.1, ?_⟩
    unfold bestNode
    rw [hp]
    rfl
  · intro w hbest
    have hbest2 := hbest
    unfold bestNode at hbest2
    cases hmax : maxBySnd (defaultMetric G none) with
    | none =>
      rw [hmax] at hbest2
      cases hbest2
    | some p =>
      rw [hmax] at hbest2
      have hp1 : p.1 = w := Option.some.inj hbest2
      have hmem := maxBySnd_mem hmax
      have hle := maxBySnd_le hmax
      simp only [defaultMetric, List.mem_map] at hmem
      obtain ⟨a, ha, heq⟩ := hmem
      have haw : a = w := by rw [← hp1, ← heq]
      subst haw
      have hsnd : p.2 = (G.degree a : Int) := by rw [← heq]
      have hwG : a ∈ G.nodes := ha
      refine ⟨hwG, ?_, ?_⟩
      · intro u hu
        have := hle (u, (G.degree u : Int))
          (by simp only [defaultMetric, List.mem_map]; exact ⟨u, hu, rfl⟩)
        rw [hsnd] at this
        have h2 : (G.degree u : Int) ≤ (G.degree a : Int) := this
        exact_mod_cast h2
      · intro o k
        exact targeted_one_removes hbest hwG (mkAttacker G n none) rfl rfl o k

theorem C8_default_degree_metric_witness :
    2 ∈ GW.nodes ∧ (∀ u ∈ GW.nodes, GW.degree u ≤ GW.degree 2) ∧
    ((mkAttacker GW 1 none).targeted oW 0 (some 1)).removed = [2] := by
  have h := (C8_default_degree_metric GW 1 []).2.2.2 2 (by decide)
  exact ⟨h.1, h.2.1, h.2.2 oW 0⟩

/-! ### Path-walk lemmas -/

theorem finishCall_removed {σ : Type} (att : NetworkAttacker)
    (res : AttackResult σ) :
    (finishCall att res).removed = res.removed := by
  cases res <;> rfl

/-- The degree metric only ranks nodes of the requested subset. -/
theorem defaultMetric_dom (G : Network) (l : List Nat) :
    ∀ p ∈ defaultMetric G (some l), p.1 ∈ l := by
  intro p hp
  simp only [defaultMetric, List.mem_map, List.mem_filter] at hp
  obtain ⟨a, ⟨hal, _⟩, heq⟩ := hp
  have ha : a = p.1 := by rw [← heq]
  rwa [← ha]

theorem discBest_some {metric : Metric} {G : Network} {l : List Nat}
    {k v k2 : Nat}
    (hdom : ∀ p ∈ metric G (some l), p.1 ∈ l)
    (h : discBest metric G k l = some (v, k2)) : v ∈ l ∧ k2 = k := by
  unfold discBest bestNode at h
  cases hmax : maxBySnd (metric G (some l)) with
  | none =>
    rw [hmax] at h
    cases h
  | some p =>
    rw [hmax] at h
    simp only [Option.map_some', Option.some.injEq, Prod.mk.injEq] at h
    obtain ⟨hv, hk⟩ := h
    exact ⟨hv ▸ hdom p (maxBySnd_mem hmax), hk.symm⟩

/-- C3: one step of the `_path_chooser` walk, for both path policies: when
the cached neighbor list from the previous removal is non-empty the chosen
node is a member of that cache; when the cache is empty the walk restarts
with a uniformly random choice among all remaining nodes; and the new cache
is always the chosen node's neighbor list in the pre-removal network (for
`targeted_path`, under the metric contract that a metric only ranks nodes
of the requested subset). -/
theorem C3_path_cache_discipline :
    ∀ (o : Oracle) (metric : Metric) (G : Network) (k : Nat) (s : PathSt)
      (v k2 : Nat) (s2 : PathSt),
      (∀ l, ∀ p ∈ metric G (some l), p.1 ∈ l) →
      ((pathChoose o (discRandom o) G k s = some (v, k2, s2) →
          (∀ l, s.neighbors = some l → l ≠ [] → v ∈ l) ∧
          (s.neighbors = some [] →
            G.nodes ≠ [] ∧ v = G.nodes.getD (o k % G.nodes.length) 0) ∧
          s2.neighbors = some (G.neighbors v)) ∧
       (pathChoose o (discBest metric) G k s = some (v, k2, s2) →
          (∀ l, s.neighbors = some l → l ≠ [] → v ∈ l) ∧
          (s.neighbors = some [] →
            G.nodes ≠ [] ∧ v = G.nodes.getD (o k % G.nodes.length) 0) ∧
          s2.neighbors = some (G.neighbors v))) := by
  intro o metric G k s v k2 s2 hdom
  obtain ⟨tg, nb⟩ := s
  constructor
  · intro h
    cases nb with
    | none =>
      simp only [pathChoose, Option.some.injEq, Prod.mk.injEq] at h
      obtain ⟨rfl, rfl, rfl⟩ := h
      refine ⟨?_, ?_, rfl⟩
      · intro l hl
        cases hl
      · intro hl
        cases hl
    | some l =>
      cases l with
      | nil =>
        simp only [pathChoose] at h
        cases hrc : randomChoice o k G.nodes with
        | none =>
          rw [hrc] at h
          cases h
        | some w =>
          obtain ⟨w1, w2⟩ := w
          rw [hrc] at h
          simp only [Option.map_some', Option.some.injEq, Prod.mk.injEq] at h
          obtain ⟨rfl, rfl, rfl⟩ := h
          obtain ⟨hmem, hne, hval, hk⟩ := randomChoice_some hrc
          refine ⟨?_, fun _ => ⟨hne, hval⟩, rfl⟩
          intro l hl hlne
          exact absurd (Option.some.inj hl).symm hlne
      | cons a t =>
        simp only [pathChoose] at h
        cases hrc : discRandom o G k (a :: t) with
        | none =>
          rw [hrc] at h
          cases h
        | some w =>
          obtain ⟨w1, w2⟩ := w
          rw [hrc] at h
          simp only [Option.map_some', Option.some.injEq, Prod.mk.injEq] at h
          obtain ⟨rfl, rfl, rfl⟩ := h
          have hmem := (randomChoice_some (hrc : randomChoice o k (a :: t)
            = some (w1, w2))).1
          refine ⟨?_, ?_, rfl⟩
          · intro l hl hlne
            rw [← Option.some.inj hl]
            exact hmem
          · intro hl
            cases Option.some.inj hl
  · intro h
    cases nb with
    | none =>
      simp only [pathChoose, Option.some.injEq, Prod.mk.injEq] at h
      obtain ⟨rfl, rfl, rfl⟩ := h
      refine ⟨?_, ?_, rfl⟩
      · intro l hl
        cases hl
      · intro hl
        cases hl
    | some l =>
      cases l with
      | nil =>
        simp only [pathChoose] at h
        cases hrc : randomChoice o k G.nodes with
        | none =>
          rw [hrc] at h
          cases h
        | some w =>
          obtain ⟨w1, w2⟩ := w
          rw [hrc] at h
          simp only [Option.map_some', Option.some.injEq, Prod.mk.injEq] at h
          obtain ⟨rfl, rfl, rfl⟩ := h
          obtain ⟨hmem, hne, hval, hk⟩ := randomChoice_some hrc
          refine ⟨?_, fun _ => ⟨hne, hval⟩, rfl⟩
          intro l hl hlne
          exact absurd (Option.some.inj hl).symm hlne
      | cons a t =>
        simp only [pathChoose] at h
        cases hrc : discBest metric G k (a :: t) with
        | none =>
          rw [hrc] at h
          cases h
        | some w =>
          obtain ⟨w1, w2⟩ := w
          rw [hrc] at h
          simp only [Option.map_some', Option.some.injEq, Prod.mk.injEq] at h
          obtain ⟨rfl, rfl, rfl⟩ := h
          have hmem := (discBest_some (hdom (a :: t)) hrc).1
          refine ⟨?_, ?_, rfl⟩
          · intro l hl hlne
            rw [← Option.some.inj hl]
            exact hmem
          · intro hl
            cases Option.some.inj hl

theorem C3_path_cache_discipline_witness :
    (2 : Nat) ∈ [2, 4] ∧
    (⟨2, some (GW.neighbors 2)⟩ : PathSt).neighbors
        = some (GW.neighbors 2) := by
  have h := C3_path_cache_discipline oW defaultMetric GW 0 ⟨3, some [2, 4]⟩
    2 0 ⟨2, some (GW.neighbors 2)⟩ (fun l => defaultMetric_dom GW l)
  have h2 := h.2 (by decide)
  exact ⟨h2.1 [2, 4] rfl (by decide), h2.2.2⟩

/-- The first node removed by a path-policy loop is the seeded target. -/
theorem pathLoop_head (o : Oracle)
    (disc : Network → Nat → List Nat → Option (Nat × Nat)) (G : Network)
    (t k2 c : Nat) (ht : t ∈ G.nodes) :
    (attackLoop (pathChoose o disc) (c + 1) G k2
      ⟨t, none⟩).removed.head? = some t := by
  have hch : pathChoose o disc G k2 ⟨t, none⟩ =
      some (t, k2, ⟨t, some (G.neighbors t)⟩) := rfl
  have hrm := removeNode_of_mem ht
  simp only [attackLoop, hch, hrm]
  cases hrec : attackLoop (pathChoose o disc) c
      ⟨G.nodes.erase t,
       G.adj.filter (fun e => decide (e.1 ≠ t ∧ e.2 ≠ t))⟩ k2
      ⟨t, some (G.neighbors t)⟩ with
  | ok G3 k3 s3 r3 => simp [AttackResult.removed]
  | err G3 k3 r3 => simp [AttackResult.removed]

/-- C9: path-walk state does not persist across separate policy calls —
each `random_path`/`targeted_path` invocation seeds fresh walk state, so the
first node it removes is a freshly drawn uniformly random node among all
currently present nodes. -/
theorem C9_fresh_path_state :
    ∀ (o : Oracle) (att : NetworkAttacker) (k : Nat) (cnt : Option Nat),
      0 < cnt.getD att.n →
      att.network.nodes ≠ [] →
      (att.random_path o k cnt).removed.head? =
          some (att.network.nodes.getD
            (o k % att.network.nodes.length) 0) ∧
      (att.targeted_path o k cnt).removed.head? =
          some (att.network.nodes.getD
            (o k % att.network.nodes.length) 0) := by
  intro o att k cnt hpos hne
  have hrc := randomChoice_of_ne_nil o k hne
  obtain ⟨c, hc⟩ : ∃ c, cnt.getD att.n = c + 1 :=
    ⟨cnt.getD att.n - 1, by omega⟩
  have ht := getD_mod_mem att.network.nodes (o k) hne
  constructor
  · unfold NetworkAttacker.random_path
    simp only [hrc]
    rw [finishCall_removed, hc]
    exact pathLoop_head o (discRandom o) att.network _ (k + 1) c ht
  · unfold NetworkAttacker.targeted_path
    simp only [hrc]
    rw [finishCall_removed, hc]
    exact pathLoop_head o (discBest att.metric) att.network _ (k + 1) c ht

theorem C9_fresh_path_state_witness :
    ((mkAttacker GW 1 none).random_path oW 0 none).removed.head? =
        some ((mkAttacker GW 1 none).network.nodes.getD
          (oW 0 % (mkAttacker GW 1 none).network.nodes.length) 0) ∧
    ((mkAttacker GW 1 none).targeted_path oW 0 none).removed.head? =
        some ((mkAttacker GW 1 none).network.nodes.getD
          (oW 0 % (mkAttacker GW 1 none).network.nodes.length) 0) :=
  C9_fresh_path_state oW (mkAttacker GW 1 none) 0 none (by decide) (by decide)

/-! ### Over-removal always raises -/

theorem applyPolicy_over (o : Oracle) (p : Policy) (att : NetworkAttacker)
    (k : Nat) (cnt : Option Nat)
    (h : att.network.nodes.length < cnt.getD att.n) :
    (applyPolicy o p att k cnt).isOk = false := by
  cases p with
  | random =>
    rw [show applyPolicy o .random att k cnt =
        finishCall att (attackLoop (randomChooser o) (cnt.getD att.n)
          att.network k ()) from rfl]
    rw [finishCall_isOk]
    exact attackLoop_not_ok _ _ _ _ _ h
  | targeted =>
    rw [show applyPolicy o .targeted att k cnt =
        finishCall att (attackLoop (bestChooser att.metric) (cnt.getD att.n)
          att.network k ()) from rfl]
    rw [finishCall_isOk]
    exact attackLoop_not_ok _ _ _ _ _ h
  | random_path =>
    cases hrc : randomChoice o k att.network.nodes with
    | none =>
      have heq : applyPolicy o .random_path att k cnt = .err att k [] := by
        unfold applyPolicy NetworkAttacker.random_path
        rw [hrc]
      rw [heq]
      rfl
    | some t =>
      obtain ⟨t1, t2⟩ := t
      have heq : applyPolicy o .random_path att k cnt =
          finishCall att (attackLoop (pathChoose o (discRandom o))
            (cnt.getD att.n) att.network t2 ⟨t1, none⟩) := by
        unfold applyPolicy NetworkAttacker.random_path
        rw [hrc]
      rw [heq, finishCall_isOk]
      exact attackLoop_not_ok _ _ _ _ _ h
  | targeted_path =>
    cases hrc : randomChoice o k att.network.nodes with
    | none =>
      have heq : applyPolicy o .targeted_path att k cnt = .err att k [] := by
        unfold applyPolicy NetworkAttacker.targeted_path
        rw [hrc]
      rw [heq]
      rfl
    | some t =>
      obtain ⟨t1, t2⟩ := t
      have heq : applyPolicy o .targeted_path att k cnt =
          finishCall att (attackLoop (pathChoose o (discBest att.metric))
            (cnt.getD att.n) att.network t2 ⟨t1, none⟩) := by
        unfold applyPolicy NetworkAttacker.targeted_path
        rw [hrc]
      rw [heq, finishCall_isOk]
      exact attackLoop_not_ok _ _ _ _ _ h

/-- C7: if a policy call requests more removals than there are present
nodes, the call raises; inside a simulation run the failure propagates with
no retry, and the result-store entries already written (here the pristine
`"0.000"` entry) remain. -/
theorem C7_over_removal_fails :
    ∀ (o : Oracle) (p : Policy) (att : NetworkAttacker) (k : Nat),
      (∀ cnt : Option Nat, att.network.nodes.length < cnt.getD att.n →
        (applyPolicy o p att k cnt).isOk = false) ∧
      (∀ (iters : Nat) (m0 : Nat × Nat),
        att.network.nodes.length < att.n → 1 ≤ iters →
        measure att.network = some m0 →
        simulate o p iters att k = ([("0.000", m0)], false)) := by
  intro o p att k
  constructor
  · intro cnt h
    exact applyPolicy_over o p att k cnt h
  · intro iters m0 hlt hit hms
    obtain ⟨i, rfl⟩ : ∃ i, iters = i + 1 := ⟨iters - 1, by omega⟩
    unfold simulate
    rw [hms]
    have herr := applyPolicy_over o p att k none hlt
    cases h1 : applyPolicy o p att k none with
    | ok a2 k2 r2 =>
      rw [h1] at herr
      simp [CallResult.isOk] at herr
    | err a2 k2 r2 =>
      simp only [simGo, h1]
      have hf : fmt 0 = "0.000" := by decide
      rw [hf]

theorem C7_over_removal_fails_witness :
    (applyPolicy oW Policy.random (mkAttacker (isolatedNet 3) 5 none) 0
        none).isOk = false ∧
    simulate oW Policy.random 1 (mkAttacker (isolatedNet 3) 5 none) 0
        = ([("0.000", (3, 1))], false) := by
  have h := C7_over_removal_fails oW Policy.random
    (mkAttacker (isolatedNet 3) 5 none) 0
  exact ⟨h.1 none (by decide), h.2 1 (3, 1) (by decide) (by decide)
    (by decide)⟩

/-! ### Measurement on isolated, complete and empty networks -/

theorem neighbors_isolated (N v : Nat) : (isolatedNet N).neighbors v = [] := by
  unfold Network.neighbors isolatedNet
  simp

theorem expandReach_isolated (N : Nat) (s : List Nat) :
    expandReach (isolatedNet N) s = s.dedup := by
  unfold expandReach
  have h : (s.map ((isolatedNet N).neighbors)).flatten = [] := by
    induction s with
    | nil => rfl
    | cons a t ih => simp [neighbors_isolated, ih]
  rw [h, List.append_nil]

theorem reachList_isolated (N v : Nat) : reachList (isolatedNet N) v = [v] := by
  unfold reachList
  have hfix : expandReach (isolatedNet N) [v] = [v] := by
    rw [expandReach_isolated]
    simp
  exact Function.iterate_fixed hfix _

theorem filter_mem_singleton {l : List Nat} {v : Nat} (hn : l.Nodup)
    (hv : v ∈ l) :
    l.filter (fun u => decide (u ∈ ([v] : List Nat))) = [v] := by
  induction l with
  | nil => cases hv
  | cons a t ih =>
    rw [List.filter_cons]
    rcases List.mem_cons.mp hv with rfl | hvt
    · have hnotv : v ∉ t := (List.nodup_cons.mp hn).1
      have ht : t.filter (fun u => decide (u ∈ ([v] : List Nat))) = [] := by
        rw [List.filter_eq_nil_iff]
        intro x hx
        simp only [List.mem_singleton, decide_eq_true_eq]
        intro hxa
        exact hnotv (hxa ▸ hx)
      have hdv : (decide (v ∈ ([v] : List Nat))) = true :=
        decide_eq_true (List.mem_singleton.mpr rfl)
      rw [hdv, if_pos rfl, ht]
    · have hav : a ≠ v := fun h => (List.nodup_cons.mp hn).1 (h ▸ hvt)
      have hda : (decide (a ∈ ([v] : List Nat))) = false := by
        simp [hav]
      rw [hda]
      simp only [Bool.false_eq_true, if_false]
      exact ih (List.nodup_cons.mp hn).2 hvt

theorem componentOf_isolated {N v : Nat} (hv : v < N) :
    componentOf (isolatedNet N) v = [v] := by
  unfold componentOf
  rw [reachList_isolated]
  exact filter_mem_singleton (List.nodup_range N) (List.mem_range.mpr hv)

theorem components_isolated (N : Nat) :
    components (isolatedNet N) = (List.range N).map (fun v => [v]) := by
  unfold components
  have hmap : (isolatedNet N).nodes.map (componentOf (isolatedNet N))
      = (List.range N).map (fun v => [v]) := by
    apply List.map_congr_left
    intro a ha
    exact componentOf_isolated (List.mem_range.mp ha)
  rw [hmap]
  apply List.dedup_eq_self.mpr
  exact (List.nodup_range N).map (fun a b h => by injection h)

theorem measure_isolated (N : Nat) (h : 1 ≤ N) :
    measure (isolatedNet N) = some (N, 1) := by
  unfold measure
  rw [components_isolated]
  have hne : (List.range N).map (fun v : Nat => [v]) ≠ [] := by
    simp only [ne_eq, List.map_eq_nil_iff, List.range_eq_nil]
    omega
  cases hmb : maxByLen ((List.range N).map fun v => [v]) with
  | none =>
    obtain ⟨c, hc⟩ := maxByLen_of_ne_nil hne
    rw [hmb] at hc
    cases hc
  | some c =>
    have hcm := maxByLen_mem hmb
    simp only [List.mem_map] at hcm
    obtain ⟨a, ha, hca⟩ := hcm
    simp only [Option.map_some', Option.some.injEq, Prod.mk.injEq]
    constructor
    · rw [List.length_map, List.length_range]
    · rw [← hca]
      rfl

theorem completeNet_adj_mem (N a b : Nat) :
    (a, b) ∈ (completeNet N).adj ↔ b < a ∧ a < N := by
  unfold completeNet
  simp only [List.mem_flatten, List.mem_map, List.mem_range]
  constructor
  · rintro ⟨l, ⟨i, hiN, rfl⟩, hab⟩
    simp only [List.mem_map, List.mem_range] at hab
    obtain ⟨j, hji, hij⟩ := hab
    have ha : i = a := congrArg Prod.fst hij
    have hb : j = b := congrArg Prod.snd hij
    omega
  · rintro ⟨hba, haN⟩
    exact ⟨(List.range a).map (fun j => (a, j)), ⟨a, haN, rfl⟩,
      by simp only [List.mem_map, List.mem_range]; exact ⟨b, hba, rfl⟩⟩

theorem neighbors_complete_mem {N v u : Nat} (hv : v < N) :
    u ∈ (completeNet N).neighbors v ↔ u < N ∧ u ≠ v := by
  unfold Network.neighbors
  simp only [List.mem_filter, decide_eq_true_eq, List.any_eq_true]
  constructor
  · rintro ⟨hu, e, he, hcase⟩
    have huN : u < N := by
      have : u ∈ List.range N := hu
      exact List.mem_range.mp this
    have hee : (e.1, e.2) ∈ (completeNet N).adj := by
      rw [Prod.mk.eta]
      exact he
    have hadj := (completeNet_adj_mem N e.1 e.2).mp hee
    rcases hcase with ⟨h1, h2⟩ | ⟨h1, h2⟩ <;> omega
  · rintro ⟨huN, hne⟩
    refine ⟨List.mem_range.mpr huN, ?_⟩
    rcases Nat.lt_or_ge u v with hlt | hge
    · exact ⟨(v, u), (completeNet_adj_mem N v u).mpr ⟨hlt, hv⟩,
        Or.inl ⟨rfl, rfl⟩⟩
    · have hlt2 : v < u := by omega
      exact ⟨(u, v), (completeNet_adj_mem N u v).mpr ⟨hlt2, huN⟩,
        Or.inr ⟨rfl, rfl⟩⟩

theorem mem_expandReach {G : Network} {s : List Nat} {u : Nat} :
    u ∈ expandReach G s ↔ u ∈ s ∨ ∃ w ∈ s, u ∈ G.neighbors w := by
  unfold expandReach
  rw [List.mem_dedup, List.mem_append]
  constructor
  · rintro (h | h)
    · exact Or.inl h
    · rw [List.mem_flatten] at h
      obtain ⟨l, hl, hul⟩ := h
      rw [List.mem_map] at hl
      obtain ⟨w, hw, rfl⟩ := hl
      exact Or.inr ⟨w, hw, hul⟩
  · rintro (h | ⟨w, hw, hu⟩)
    · exact Or.inl h
    · refine Or.inr ?_
      rw [List.mem_flatten]
      exact ⟨G.neighbors w, List.mem_map.mpr ⟨w, hw, rfl⟩, hu⟩

theorem mem_iterate_expandReach (G : Network) (u : Nat) :
    ∀ (m : Nat) (s : List Nat), u ∈ s → u ∈ (expandReach G)^[m] s := by
  intro m
  induction m with
  | zero => intro s h; exact h
  | succ m ih =>
    intro s h
    rw [Function.iterate_succ_apply]
    exact ih _ (mem_expandReach.mpr (Or.inl h))

theorem reach_complete {N v u : Nat} (hv : v < N) (hu : u < N) :
    u ∈ reachList (completeNet N) v := by
  unfold reachList
  have hlen : (completeNet N).nodes.length = N := by
    simp [completeNet]
  rw [hlen]
  obtain ⟨M, rfl⟩ : ∃ M, N = M + 1 := ⟨N - 1, by omega⟩
  rw [Function.iterate_succ_apply]
  apply mem_iterate_expandReach
  apply mem_expandReach.mpr
  by_cases huv : u = v
  · exact Or.inl (by simp [huv])
  · exact Or.inr ⟨v, by simp, (neighbors_complete_mem hv).mpr ⟨hu, huv⟩⟩

theorem componentOf_complete {N v : Nat} (hv : v < N) :
    componentOf (completeNet N) v = List.range N := by
  unfold componentOf
  apply List.filter_eq_self.mpr
  intro a ha
  have haN : a < N := List.mem_range.mp ha
  exact decide_eq_true (reach_complete hv haN)

theorem dedup_replicate (x : List Nat) :
    ∀ n, 1 ≤ n → (List.replicate n x).dedup = [x] := by
  intro n
  induction n with
  | zero => intro h; omega
  | succ m ih =>
    intro h
    by_cases hm : m = 0
    · subst hm
      simp
    · have hm1 : 1 ≤ m := by omega
      rw [List.replicate_succ, List.dedup_cons_of_mem
        (List.mem_replicate.mpr ⟨hm, rfl⟩)]
      exact ih hm1

theorem components_complete (N : Nat) (hN : 1 ≤ N) :
    components (completeNet N) = [List.range N] := by
  unfold components
  have hmap : (completeNet N).nodes.map (componentOf (completeNet N))
      = List.replicate N (List.range N) := by
    have h1 : (completeNet N).nodes.map (componentOf (completeNet N))
        = (completeNet N).nodes.map (fun _ => List.range N) := by
      apply List.map_congr_left
      intro a ha
      exact componentOf_complete (List.mem_range.mp ha)
    rw [h1, List.map_const']
    simp [completeNet]
  rw [hmap]
  exact dedup_replicate _ N hN

theorem measure_complete (N : Nat) (hN : 1 ≤ N) :
    measure (completeNet N) = some (1, N) := by
  unfold measure
  rw [components_complete N hN]
  simp [maxByLen]

/-- C4 counterexample: on the empty network the claim demands `(0, 0)`, but
`measure` takes `max` of the empty component sequence, which raises, so
there is no result value at all. -/
theorem C4_measure_empty_counterexample : measure emptyNet ≠ some (0, 0) := by
  decide

/-- C4 (amended): `measure` returns `(N, 1)` on `N ≥ 1` isolated nodes and
`(1, N)` on the fully connected network of size `N ≥ 1`; on the empty
network it raises (`max` of an empty sequence) instead of returning
`(0, 0)`. -/
theorem C4_measure_values :
    ∀ N : Nat, 1 ≤ N →
      measure (isolatedNet N) = some (N, 1) ∧
      measure (completeNet N) = some (1, N) ∧
      measure emptyNet = none := by
  intro N h
  exact ⟨measure_isolated N h, measure_complete N h, by decide⟩

theorem C4_measure_values_witness :
    measure (isolatedNet 3) = some (3, 1) ∧
    measure (completeNet 3) = some (1, 3) ∧
    measure emptyNet = none :=
  C4_measure_values 3 (by decide)

/-! ### Result-store keys -/

theorem digitChar_val {d : Nat} (h : d < 10) : (digitChar d).toNat - 48 = d := by
  interval_cases d <;> decide

theorem keyVal_fmt {i : Nat} (h : i < 1000) : keyVal (fmt i) = i := by
  have h1 : i / 100 % 10 < 10 := Nat.mod_lt _ (by omega)
  have h2 : i / 10 % 10 < 10 := Nat.mod_lt _ (by omega)
  have h3 : i % 10 < 10 := Nat.mod_lt _ (by omega)
  show ((digitChar (i / 100 % 10)).toNat - 48) * 100 +
      ((digitChar (i / 10 % 10)).toNat - 48) * 10 +
      ((digitChar (i % 10)).toNat - 48) = i
  rw [digitChar_val h1, digitChar_val h2, digitChar_val h3]
  omega

/-- A completed `simGo` run appends one entry per index, keyed `fmt idx`. -/
theorem simGo_ok (o : Oracle) (p : Policy) :
    ∀ (fuel idx : Nat) (att : NetworkAttacker) (k : Nat)
      (store store2 : List (String × Nat × Nat)),
      simGo o p fuel idx att k store = (store2, true) →
      ∃ tail, store2 = store ++ tail ∧
        tail.map Prod.fst = (List.range' idx fuel).map fmt := by
  intro fuel
  induction fuel with
  | zero =>
    intro idx att k store store2 h
    simp only [simGo] at h
    have h1 := congrArg Prod.fst h
    refine ⟨[], ?_, rfl⟩
    rw [List.append_nil]
    exact h1.symm
  | succ m ih =>
    intro idx att k store store2 h
    cases h1 : applyPolicy o p att k none with
    | err a2 k2 r2 =>
      simp only [simGo, h1] at h
      have hsnd := congrArg Prod.snd h
      cases hsnd
    | ok a2 k2 r2 =>
      cases h2 : measure a2.network with
      | none =>
        simp only [simGo, h1, h2] at h
        have hsnd := congrArg Prod.snd h
        cases hsnd
      | some m =>
        simp only [simGo, h1, h2] at h
        obtain ⟨tail, htail, hmap⟩ :=
          ih (idx + 1) a2 k2 (store ++ [(fmt idx, m)]) store2 h
        refine ⟨(fmt idx, m) :: tail, ?_, ?_⟩
        · rw [htail, List.append_assoc]
          rfl
        · rw [List.map_cons, hmap]
          rfl

/-- C5: a full (successful) simulation run over `iters` steps writes
exactly `iters + 1` entries, keyed `fmt 0 .. fmt iters`; the first entry is
`"0.000"` with the pristine measurement; no key is written twice and the
keys strictly increase in the fraction they denote. -/
theorem C5_simulation_store :
    ∀ (o : Oracle) (p : Policy) (iters : Nat) (att : NetworkAttacker)
      (k : Nat) (store : List (String × Nat × Nat)) (m0 : Nat × Nat),
      iters ≤ 999 →
      measure att.network = some m0 →
      simulate o p iters att k = (store, true) →
      store.length = iters + 1 ∧
      store.map Prod.fst = (List.range (iters + 1)).map fmt ∧
      store.head? = some ("0.000", m0) ∧
      (store.map Prod.fst).Nodup ∧
      List.Pairwise (fun a b => keyVal a < keyVal b) (store.map Prod.fst) := by
  intro o p iters att k store m0 hle hms hsim
  unfold simulate at hsim
  rw [hms] at hsim
  obtain ⟨tail, htail, hmap⟩ :=
    simGo_ok o p iters 1 att k [(fmt 0, m0)] store hsim
  subst htail
  have hkeys : (((fmt 0, m0) :: tail).map Prod.fst)
      = (List.range (iters + 1)).map fmt := by
    rw [List.map_cons, hmap]
    have hr : List.range (iters + 1) = 0 :: List.range' 1 iters := by
      rw [List.range_eq_range']
      rfl
    rw [hr]
    rfl
  have hpw : List.Pairwise (fun a b => keyVal a < keyVal b)
      (((fmt 0, m0) :: tail).map Prod.fst) := by
    rw [hkeys, List.pairwise_map]
    refine List.Pairwise.imp_of_mem ?_ (List.pairwise_lt_range (iters + 1))
    intro a b ha hb hab
    have haB : a < 1000 := by
      have := List.mem_range.mp ha
      omega
    have hbB : b < 1000 := by
      have := List.mem_range.mp hb
      omega
    rw [keyVal_fmt haB, keyVal_fmt hbB]
    exact hab
  have hlen : (((fmt 0, m0) :: tail)).length = iters + 1 := by
    have hl := congrArg List.length hkeys
    rw [List.length_map, List.length_map, List.length_range] at hl
    exact hl
  have hhd : (((fmt 0, m0) :: tail)).head? = some ("0.000", m0) := by
    have hf : fmt 0 = "0.000" := by decide
    show some (fmt 0, m0) = some ("0.000", m0)
    rw [hf]
  exact ⟨hlen, hkeys, hhd,
    hpw.imp (fun hlt heq => absurd (heq ▸ hlt) (lt_irrefl _)), hpw⟩

theorem C5_simulation_store_witness :
    (simulate oW Policy.random 2 attW 0).1.length = 2 + 1 ∧
    (simulate oW Policy.random 2 attW 0).1.head? = some ("0.000", (3, 1)) := by
  have h := C5_simulation_store oW Policy.random 2 attW 0
    (simulate oW Policy.random 2 attW 0).1 (3, 1) (by decide) (by decide)
    (by decide)
  exact ⟨h.1, h.2.2.1⟩

end IR
